import Mathlib

/-!
Verification development for the zellij-command-hook repository.

Strings are modelled as `List Char` (`Str`).  A Rust `&str` is UTF-8; the
byte 0 occurs in the UTF-8 encoding of a string exactly when the character
U+0000 occurs in it, and all characters the program inspects are ASCII, so
the character-list model is faithful for every operation the program
performs.
-/

abbrev Str := List Char

/-- Rust `s.split(' ')`: split at every occurrence of the separator,
keeping empty pieces; always returns at least one piece. -/
def splitOnChar (sep : Char) : Str → List Str
  | [] => [[]]
  | c :: rest =>
    if c = sep then [] :: splitOnChar sep rest
    else
      match splitOnChar sep rest with
      | [] => [[c]]
      | p :: ps => (c :: p) :: ps

/-- Rust `s.split_whitespace()`: split on whitespace, dropping empty pieces. -/
def splitWs (s : Str) : List Str :=
  (s.splitOnP (fun c => c.isWhitespace)).filter (fun t => t ≠ [])

/-- Space-join of a token list, as Rust `join(" ")`. -/
def joinSp : List Str → Str
  | [] => []
  | [t] => t
  | t :: u :: rest => t ++ ' ' :: joinSp (u :: rest)

/-- Rust `s.ends_with(suf)`. -/
def endsW (suf s : Str) : Bool := List.isSuffixOf suf s

/-- Rust `s.starts_with(pre)`. -/
def startsW (p s : Str) : Bool := List.isPrefixOf p s

/-- Rust `s.starts_with('-')` for a single character. -/
def startsWCh (c : Char) : Str → Bool
  | [] => false
  | d :: _ => d = c

/-- Rust `s.strip_prefix(p).unwrap_or("")`. -/
def stripPreD (p s : Str) : Str :=
  if List.isPrefixOf p s then s.drop p.length else []

/-- Rust `haystack.contains(needle)` (substring containment). -/
def containsSub (hay needle : Str) : Bool :=
  (List.range (hay.length + 1)).any (fun i => List.isPrefixOf needle (hay.drop i))

/-- src/nvim.rs `could_be_filename`: false when the token holds a NUL byte
or one of the forbidden characters, true otherwise. -/
def could_be_filename (s : Str) : Bool :=
  if s.any (fun c => c.toNat = 0) then false
  else if s.any (fun c => c ∈ ['<', '>', '"', ':', '|', '?', ';', '=']) then false
  else true

/-- The stop test of the backward scan in src/nvim.rs `format_nvim`:
a token is accumulated while it does not start with `-`, does not end
with `nvim`, and passes `could_be_filename`. -/
def goodTok (t : Str) : Bool :=
  !(startsWCh '-' t) && !(endsW "nvim".toList t) && could_be_filename t

/-- src/nvim.rs `format_nvim`. -/
def format_nvim (command : Str) : Str :=
  let parts := splitOnChar ' ' command
  match parts with
  | [] => command
  | first :: _ =>
    if !(endsW "nvim".toList first) && !(endsW "nvim.exe".toList first) then
      command
    else
      let file_names := parts.reverse.takeWhile goodTok
      "nvim ".toList ++ joinSp file_names.reverse

/-- The stop test of the backward scan in src/main.rs `format_nvim`
(this copy has no stop on tokens ending in `nvim`). -/
def goodTokMain (t : Str) : Bool :=
  !(startsWCh '-' t) && could_be_filename t

/-- src/main.rs `format_nvim` (the second, independent copy). -/
def format_nvim_main (command : Str) : Str :=
  let parts := splitOnChar ' ' command
  match parts with
  | [] => command
  | first :: _ =>
    if !(endsW "nvim".toList first) && !(endsW "nvim.exe".toList first) then
      command
    else
      let file_names := parts.reverse.takeWhile goodTokMain
      "nvim ".toList ++ joinSp file_names.reverse

/-!
## The KDL document model

Modelled from the spec: the kdl library types used by src/kdl.rs are not
part of this repository.  Per the spec's data-model section, a Node has a
name, an ordered entry list (named or positional values), an optional
child block, and leading-whitespace formatting metadata; an Entry has an
optional name, a value (string, boolean or number) and its own leading
formatting.
-/

inductive KVal where
  | str (s : Str)
  | boolv (b : Bool)
  | num (n : Int)
deriving DecidableEq

/-- `KVal::as_string`: `some` for string values only. -/
def KVal.asString : KVal → Option Str
  | .str s => some s
  | _ => none

structure KEntry where
  ename : Option Str
  eleading : Option Str
  value : KVal
deriving DecidableEq

inductive KNode where
  | mk (leading : Option Str) (name : Str) (entries : List KEntry)
       (children : Option (List KNode))

def KNode.leading : KNode → Option Str
  | .mk l _ _ _ => l

def KNode.name : KNode → Str
  | .mk _ nm _ _ => nm

def KNode.entries : KNode → List KEntry
  | .mk _ _ es _ => es

def KNode.children : KNode → Option (List KNode)
  | .mk _ _ _ cs => cs

def KNode.withChildren : KNode → Option (List KNode) → KNode
  | .mk l nm es _, cs => .mk l nm es cs

def KNode.withLeading : KNode → Option Str → KNode
  | .mk _ nm es cs, l => .mk l nm es cs

def KNode.withEntries : KNode → List KEntry → KNode
  | .mk l nm _ cs, es => .mk l nm es cs

mutual

/-- Number of `pane`-named nodes in a subtree (termination measure for the
tree walk, which recurses into the children of a just-mutated pane). -/
def pcN : KNode → Nat
  | .mk _ nm _ none => if nm = "pane".toList then 1 else 0
  | .mk _ nm _ (some cs) => (if nm = "pane".toList then 1 else 0) + pcList cs

/-- Sum of `pcN` over a node list. -/
def pcList : List KNode → Nat
  | [] => 0
  | n :: rest => pcN n + pcList rest

end

/-!
## Serialization

Modelled from the spec: re-serialization of the document, deterministic
from the nodes; a node renders as its leading whitespace, its name, its
entries (each with its own leading, defaulting to one space), and its
brace-delimited child block.
-/

def lbrace : Char := Char.ofNat 123

def rbrace : Char := Char.ofNat 125

def renderVal : KVal → Str
  | .str s => '"' :: s ++ ['"']
  | .boolv true => "true".toList
  | .boolv false => "false".toList
  | .num n => (toString n).toList

def renderEntry (e : KEntry) : Str :=
  (e.eleading.getD " ".toList) ++
    (match e.ename with
     | some n => n ++ '=' :: renderVal e.value
     | none => renderVal e.value)

mutual

def serializeNode : KNode → Str
  | .mk l nm es none =>
    l.getD [] ++ nm ++ (es.map renderEntry).flatten
  | .mk l nm es (some cs) =>
    l.getD [] ++ nm ++ (es.map renderEntry).flatten ++
      (' ' :: lbrace :: serializeList cs) ++ [rbrace]

/-- Serialization of a document (node list). -/
def serializeList : List KNode → Str
  | [] => []
  | n :: rest => serializeNode n ++ serializeList rest

end

/-- src/kdl.rs `Changes` (file path, original and simplified command). -/
structure Change where
  file_path : Str
  original_command : Str
  simplified_command : Str
deriving DecidableEq

/-- The entry-scan of src/kdl.rs `get_entry_string_value`: first entry
carrying the requested name (string-valued or not). -/
def findEntryNamed (k : Str) : List KEntry → Option KEntry
  | [] => none
  | e :: es => if e.ename = some k then some e else findEntryNamed k es

/-- src/kdl.rs `get_entry_string_value`: the loop returns at the first
entry with the requested name, `None` when that entry is not a string. -/
def get_entry_string_value (n : KNode) (k : Str) : Option Str :=
  match findEntryNamed k n.entries with
  | some e => KVal.asString e.value
  | none => none

/-- First child named `args`, as scanned by `get_args_from_children`. -/
def findArgsNode : List KNode → Option KNode
  | [] => none
  | c :: cs => if KNode.name c = "args".toList then some c else findArgsNode cs

/-- Positional string values of an entry list (named entries and
non-string values are dropped). -/
def argsVals (es : List KEntry) : List Str :=
  (es.filter (fun e => e.ename = none)).filterMap (fun e => KVal.asString e.value)

/-- src/kdl.rs `get_args_from_children`. -/
def get_args_from_children (pane : KNode) : List Str :=
  match pane.children with
  | none => []
  | some cs =>
    match findArgsNode cs with
    | some c => argsVals c.entries
    | none => []

/-- The entry-scan of src/kdl.rs `is_direnv_tab`: the loop decides at the
first `name`-named entry with a string value and skips non-string ones. -/
def isDirenvEntries : List KEntry → Bool
  | [] => false
  | e :: es =>
    if e.ename = some "name".toList then
      match e.value with
      | .str s => startsW "dr ".toList s
      | _ => isDirenvEntries es
    else isDirenvEntries es

/-- src/kdl.rs `is_direnv_tab`. -/
def is_direnv_tab (n : KNode) : Bool := isDirenvEntries n.entries

/-- The entry-list operation behind `set_entry_string_value`.  Modelled
from the spec: the kdl library `insert` replaces the value of the first
entry with the given name, preserving its formatting metadata, or appends
a fresh entry when none exists. -/
def setEntryList (k v : Str) : List KEntry → List KEntry
  | [] => [⟨some k, none, .str v⟩]
  | e :: es =>
    if e.ename = some k then ⟨e.ename, e.eleading, .str v⟩ :: es
    else e :: setEntryList k v es

/-- src/kdl.rs `set_entry_string_value`. -/
def set_entry_string_value (n : KNode) (k v : Str) : KNode :=
  KNode.withEntries n (setEntryList k v n.entries)

/-- Rust `trim_start_matches('\n')`. -/
def trimLeadNL (s : Str) : Str := s.dropWhile (fun c => c = '\n')

/-- The fresh `args` node built by `set_args_in_children`: positional
string entries, each a fresh entry with no formatting of its own. -/
def newArgsNode (leading : Option Str) (args : List Str) : KNode :=
  .mk leading "args".toList (args.map (fun a => ⟨none, none, .str a⟩)) none

/-- Overwrite the first `args`-named node in place at the same sibling
position (the `children.nodes_mut()[idx] = args_node` step). -/
def replaceFirstArgs (x : KNode) : List KNode → List KNode
  | [] => []
  | c :: rest =>
    if KNode.name c = "args".toList then x :: rest
    else c :: replaceFirstArgs x rest

/-- src/kdl.rs `set_args_in_children`: replace the first existing `args`
node in place reusing its leading (falling back to the first child's
leading), or insert a fresh `args` node first, stripping leading blank
lines from the node that was previously first. -/
def set_args_in_children (pane : KNode) (args : List Str) : KNode :=
  let cs0 := (KNode.children pane).getD []
  match findArgsNode cs0 with
  | some found =>
    let leading := (KNode.leading found).orElse (fun _ => (cs0.head?).bind KNode.leading)
    KNode.withChildren pane (some (replaceFirstArgs (newArgsNode leading args) cs0))
  | none =>
    let leading := (cs0.head?).bind KNode.leading
    let args_node := newArgsNode leading args
    let cs1 :=
      match cs0 with
      | [] => []
      | c :: rest => KNode.withLeading c ((KNode.leading c).map trimLeadNL) :: rest
    KNode.withChildren pane (some (args_node :: cs1))

/-- src/kdl.rs `remove_args_from_children`. -/
def remove_args_from_children (pane : KNode) : KNode :=
  match KNode.children pane with
  | none => pane
  | some cs => KNode.withChildren pane (some (cs.filter (fun c => KNode.name c ≠ "args".toList)))

/-- The `full_cmd` / `original_desc` expression of src/kdl.rs: the command
joined with its existing args, or the bare command when there are none. -/
def full_cmd (command : Str) (existing_args : List Str) : Str :=
  if existing_args = [] then command
  else command ++ ' ' :: joinSp existing_args

/-- The `(cmd_name, file_args)` derivation of src/kdl.rs
`apply_direnv_transform`, from the simplified command string. -/
def cmdNameAndFiles (simplified_cmd : Str) : Str × List Str :=
  if startsW "nvim ".toList simplified_cmd then
    ("nvim".toList, splitWs (stripPreD "nvim ".toList simplified_cmd))
  else if simplified_cmd = "nvim".toList then ("nvim".toList, [])
  else (simplified_cmd, [])

/-- The new positional args built by src/kdl.rs `apply_direnv_transform`:
`exec . cmd_name` followed by the simplifier-derived file args when
non-empty, else the existing args when non-empty, else nothing. -/
def direnvNewArgs (cmd_name : Str) (file_args existing_args : List Str) : List Str :=
  ["exec".toList, ".".toList, cmd_name] ++
    (if file_args ≠ [] then file_args
     else if existing_args ≠ [] then existing_args else [])

/-- src/kdl.rs `apply_direnv_transform`. -/
def apply_direnv_transform (pane : KNode) (original_command : Str)
    (existing_args : List Str) : KNode × List Change :=
  if original_command = "direnv".toList then (pane, [])
  else
    let simplified_cmd :=
      if containsSub original_command "nvim".toList then
        format_nvim (full_cmd original_command existing_args)
      else original_command
    let cf := cmdNameAndFiles simplified_cmd
    let new_args := direnvNewArgs cf.1 cf.2 existing_args
    let p1 := set_entry_string_value pane "command".toList "direnv".toList
    let p2 := set_args_in_children p1 new_args
    (p2, [⟨[], full_cmd original_command existing_args,
           "direnv ".toList ++ joinSp new_args⟩])

/-- src/kdl.rs `apply_nvim_simplification`. -/
def apply_nvim_simplification (pane : KNode) (original_command : Str)
    (existing_args : List Str) : KNode × List Change :=
  let formatted := format_nvim (full_cmd original_command existing_args)
  if formatted = full_cmd original_command existing_args then (pane, [])
  else
    let files := splitWs (stripPreD "nvim ".toList formatted)
    let p1 := set_entry_string_value pane "command".toList "nvim".toList
    let p2 :=
      if files ≠ [] then set_args_in_children p1 files
      else remove_args_from_children p1
    (p2, [⟨[], full_cmd original_command existing_args, formatted⟩])

/-- src/kdl.rs `process_single_pane`. -/
def process_single_pane (pane : KNode) (is_dr_tab : Bool) : KNode × List Change :=
  match get_entry_string_value pane "command".toList with
  | none => (pane, [])
  | some command =>
    let existing_args := get_args_from_children pane
    if is_dr_tab then apply_direnv_transform pane command existing_args
    else if containsSub command "nvim".toList then
      apply_nvim_simplification pane command existing_args
    else (pane, [])

/-! ## Decidable equality for nodes -/

mutual

def nodeBEq : KNode → KNode → Bool
  | .mk l1 n1 e1 c1, .mk l2 n2 e2 c2 =>
    decide (l1 = l2) && decide (n1 = n2) && decide (e1 = e2) && optBEq c1 c2

def optBEq : Option (List KNode) → Option (List KNode) → Bool
  | none, none => true
  | some a, some b => nodesBEq a b
  | _, _ => false

def nodesBEq : List KNode → List KNode → Bool
  | [], [] => true
  | a :: as, b :: bs => nodeBEq a b && nodesBEq as bs
  | _, _ => false

end

/-! ## Concrete fixtures used by counterexamples and witnesses -/

def cmdEntry (s : Str) : KEntry := ⟨some "command".toList, some " ".toList, .str s⟩

/-- Scenario D input: `pane command="/usr/bin/nvim"` with an empty `args`
child. -/
def paneD0 : KNode := .mk none "pane".toList [cmdEntry "/usr/bin/nvim".toList]
  (some [.mk (some "\n    ".toList) "args".toList [] none])

/-- The result of processing `paneD0`: `pane command="nvim"` with no
`args` child. -/
def paneD1 : KNode := .mk none "pane".toList [cmdEntry "nvim".toList] (some [])

def paneNvimx : KNode := .mk none "pane".toList [cmdEntry "nvimx".toList] none

def paneBacon : KNode := .mk none "pane".toList [cmdEntry "bacon".toList] none

def susNode : KNode := .mk (some "\n    ".toList) "start_suspended".toList
  [⟨none, some " ".toList, .boolv true⟩] none

def paneC2 : KNode := .mk none "pane".toList [cmdEntry "bacon".toList] (some [susNode])

def paneBaconWrapped : KNode := .mk (some "\n        ".toList) "pane".toList
  [cmdEntry "bacon".toList] none

def wrapperNode : KNode := .mk (some "\n    ".toList) "floating_panes".toList []
  (some [paneBaconWrapped])

def tabDrWrap : KNode := .mk none "tab".toList
  [⟨some "name".toList, some " ".toList, .str "dr x".toList⟩] (some [wrapperNode])

/-! ## Frame-property formalizations for the C2 claim -/

/-- Formalization of the entry part of C2's frame: same number of entries,
names and entry formatting preserved pointwise, and entries not named
`command` completely unchanged. -/
def entriesFrame (es es2 : List KEntry) : Prop :=
  es2.length = es.length ∧
  ∀ (i : Nat) (h1 : i < es.length) (h2 : i < es2.length),
    (es2.get ⟨i, h2⟩).ename = (es.get ⟨i, h1⟩).ename ∧
    (es2.get ⟨i, h2⟩).eleading = (es.get ⟨i, h1⟩).eleading ∧
    ((es.get ⟨i, h1⟩).ename ≠ some "command".toList →
      es2.get ⟨i, h2⟩ = es.get ⟨i, h1⟩)

/-- Formalization of the child part of C2's frame: the children not named
`args` are unchanged, except that the child that was first may have had
leading newline characters stripped from its leading whitespace. -/
def childFrame (cs cs2 : List KNode) : Prop :=
  cs2.filter (fun c => KNode.name c ≠ "args".toList) =
    cs.filter (fun c => KNode.name c ≠ "args".toList) ∨
  ∃ h t, cs.filter (fun c => KNode.name c ≠ "args".toList) = h :: t ∧
    cs2.filter (fun c => KNode.name c ≠ "args".toList) =
      KNode.withLeading h ((KNode.leading h).map trimLeadNL) :: t

/-! ## Pane-count lemmas (termination of the tree walk) -/

theorem pcN_eq_shape (l : Option Str) (nm : Str) (es : List KEntry)
    (cs : Option (List KNode)) :
    pcN (.mk l nm es cs) =
      (if nm = "pane".toList then 1 else 0) + pcList (cs.getD []) := by
  cases cs <;> simp [pcN, pcList]

theorem pcN_children_eq (n : KNode) :
    pcN n = (if KNode.name n = "pane".toList then 1 else 0) +
      pcList ((KNode.children n).getD []) := by
  cases n with
  | mk l nm es cs => rw [pcN_eq_shape]; rfl

theorem pcN_congr_shape (a b : KNode) (h1 : KNode.name a = KNode.name b)
    (h2 : KNode.children a = KNode.children b) : pcN a = pcN b := by
  rw [pcN_children_eq a, pcN_children_eq b, h1, h2]

theorem pcN_newArgsNode (l : Option Str) (as : List Str) :
    pcN (newArgsNode l as) = 0 := by
  unfold newArgsNode
  rw [pcN_eq_shape]
  decide

theorem pcN_withLeading (c : KNode) (l : Option Str) :
    pcN (KNode.withLeading c l) = pcN c := by
  cases c with
  | mk a nm es cs => apply pcN_congr_shape <;> rfl

theorem pcList_replaceFirstArgs_le (cs : List KNode) (x : KNode) (hx : pcN x = 0) :
    pcList (replaceFirstArgs x cs) ≤ pcList cs := by
  induction cs with
  | nil => simp [replaceFirstArgs]
  | cons c rest ih =>
    unfold replaceFirstArgs
    split
    · simp only [pcList, hx, Nat.zero_add]
      exact Nat.le_add_left _ _
    · simp only [pcList]
      exact Nat.add_le_add_left ih _

theorem pcList_filter_le (p : KNode → Bool) (cs : List KNode) :
    pcList (cs.filter p) ≤ pcList cs := by
  induction cs with
  | nil => simp [pcList]
  | cons c rest ih =>
    rw [List.filter_cons]
    by_cases h : p c = true
    · rw [if_pos h]
      simp only [pcList]
      exact Nat.add_le_add_left ih _
    · rw [if_neg h]
      simp only [pcList]
      exact le_trans ih (Nat.le_add_left _ _)

theorem set_entry_name (n : KNode) (k v : Str) :
    KNode.name (set_entry_string_value n k v) = KNode.name n := by
  cases n; rfl

theorem set_entry_children (n : KNode) (k v : Str) :
    KNode.children (set_entry_string_value n k v) = KNode.children n := by
  cases n; rfl

theorem set_entry_leading (n : KNode) (k v : Str) :
    KNode.leading (set_entry_string_value n k v) = KNode.leading n := by
  cases n; rfl

theorem set_entry_pcN (n : KNode) (k v : Str) :
    pcN (set_entry_string_value n k v) = pcN n := by
  apply pcN_congr_shape
  · exact set_entry_name n k v
  · exact set_entry_children n k v

theorem withChildren_name (n : KNode) (cs : Option (List KNode)) :
    KNode.name (KNode.withChildren n cs) = KNode.name n := by
  cases n; rfl

theorem withChildren_children (n : KNode) (cs : Option (List KNode)) :
    KNode.children (KNode.withChildren n cs) = cs := by
  cases n; rfl

theorem withChildren_entries (n : KNode) (cs : Option (List KNode)) :
    KNode.entries (KNode.withChildren n cs) = KNode.entries n := by
  cases n; rfl

theorem withChildren_leading (n : KNode) (cs : Option (List KNode)) :
    KNode.leading (KNode.withChildren n cs) = KNode.leading n := by
  cases n; rfl

theorem set_args_name (p : KNode) (as : List Str) :
    KNode.name (set_args_in_children p as) = KNode.name p := by
  cases p
  unfold set_args_in_children
  dsimp only
  split <;> rfl

theorem set_args_entries (p : KNode) (as : List Str) :
    KNode.entries (set_args_in_children p as) = KNode.entries p := by
  cases p
  unfold set_args_in_children
  dsimp only
  split <;> rfl

theorem set_args_leading (p : KNode) (as : List Str) :
    KNode.leading (set_args_in_children p as) = KNode.leading p := by
  cases p
  unfold set_args_in_children
  dsimp only
  split <;> rfl

theorem set_args_pcN_le (p : KNode) (as : List Str) :
    pcN (set_args_in_children p as) ≤ pcN p := by
  cases p with
  | mk l nm es cs =>
    unfold set_args_in_children
    dsimp only
    split
    · rw [pcN_children_eq, withChildren_name, withChildren_children, pcN_children_eq]
      apply Nat.add_le_add_left
      simp only [Option.getD_some]
      exact pcList_replaceFirstArgs_le _ _ (pcN_newArgsNode _ _)
    · rw [pcN_children_eq, withChildren_name, withChildren_children, pcN_children_eq]
      apply Nat.add_le_add_left
      simp only [Option.getD_some]
      cases hcs : (KNode.children (KNode.mk l nm es cs)).getD [] with
      | nil => simp [hcs, pcList, pcN_newArgsNode]
      | cons c rest =>
        simp [hcs, pcList, pcN_newArgsNode, pcN_withLeading]

theorem remove_args_name (p : KNode) :
    KNode.name (remove_args_from_children p) = KNode.name p := by
  unfold remove_args_from_children
  cases h : KNode.children p <;> simp [h, withChildren_name]

theorem remove_args_entries (p : KNode) :
    KNode.entries (remove_args_from_children p) = KNode.entries p := by
  unfold remove_args_from_children
  cases h : KNode.children p <;> simp [h, withChildren_entries]

theorem remove_args_leading (p : KNode) :
    KNode.leading (remove_args_from_children p) = KNode.leading p := by
  unfold remove_args_from_children
  cases h : KNode.children p <;> simp [h, withChildren_leading]

theorem remove_args_pcN_le (p : KNode) :
    pcN (remove_args_from_children p) ≤ pcN p := by
  unfold remove_args_from_children
  cases h : KNode.children p with
  | none => exact Nat.le_refl _
  | some cs =>
    rw [pcN_children_eq, withChildren_name, withChildren_children, pcN_children_eq p, h]
    apply Nat.add_le_add_left
    simp only [Option.getD_some]
    exact pcList_filter_le _ _

theorem process_single_pane_name (p : KNode) (f : Bool) :
    KNode.name (process_single_pane p f).1 = KNode.name p := by
  unfold process_single_pane
  split
  · rfl
  · split
    · unfold apply_direnv_transform
      split
      · rfl
      · dsimp only
        rw [set_args_name, set_entry_name]
    · split
      · unfold apply_nvim_simplification
        dsimp only
        split
        · rfl
        · split
          · exact (set_args_name _ _).trans (set_entry_name _ _ _)
          · exact (remove_args_name _).trans (set_entry_name _ _ _)
      · rfl

theorem process_single_pane_pcN_le (p : KNode) (f : Bool) :
    pcN (process_single_pane p f).1 ≤ pcN p := by
  unfold process_single_pane
  split
  · exact Nat.le_refl _
  · split
    · unfold apply_direnv_transform
      split
      · exact Nat.le_refl _
      · dsimp only
        calc pcN (set_args_in_children (set_entry_string_value p "command".toList "direnv".toList) _)
            ≤ pcN (set_entry_string_value p "command".toList "direnv".toList) :=
              set_args_pcN_le _ _
          _ = pcN p := set_entry_pcN _ _ _
    · split
      · unfold apply_nvim_simplification
        dsimp only
        split
        · exact Nat.le_refl _
        · split
          · exact le_trans (set_args_pcN_le _ _) (le_of_eq (set_entry_pcN _ _ _))
          · exact le_trans (remove_args_pcN_le _) (le_of_eq (set_entry_pcN _ _ _))
      · exact Nat.le_refl _

theorem pcList_cons (c : KNode) (rest : List KNode) :
    pcList (c :: rest) = pcN c + pcList rest := by
  simp [pcList]

theorem sizeOf_children_lt (n : KNode) (cs : List KNode)
    (h : KNode.children n = some cs) : sizeOf cs < sizeOf n := by
  cases n with
  | mk l nm es co =>
    cases co with
    | none => simp [KNode.children] at h
    | some cs2 =>
      simp only [KNode.children, Option.some.injEq] at h
      subst h
      simp only [KNode.mk.sizeOf_spec, Option.some.sizeOf_spec]
      omega

theorem psp_childrenPc_lt (c : KNode) (f : Bool) (hc : KNode.name c = "pane".toList) :
    pcList ((KNode.children (process_single_pane c f).1).getD []) < pcN c := by
  have h1 : pcN (process_single_pane c f).1 ≤ pcN c := process_single_pane_pcN_le c f
  have h2 := pcN_children_eq (process_single_pane c f).1
  rw [process_single_pane_name c f, hc] at h2
  simp at h2
  omega

theorem prodLexLeft (pc1 pc2 sz1 sz2 : Nat) (h : pc1 < pc2) :
    Prod.Lex (fun a b : Nat => a < b) (fun a b : Nat => a < b) (pc1, sz1) (pc2, sz2) :=
  Prod.Lex.left _ _ h

theorem prodLexCons (pc1 pc2 sz1 sz2 : Nat) (h1 : pc1 ≤ pc2) (h2 : sz1 < sz2) :
    Prod.Lex (fun a b : Nat => a < b) (fun a b : Nat => a < b) (pc1, sz1) (pc2, sz2) := by
  rcases Nat.lt_or_ge pc1 pc2 with h | h
  · exact Prod.Lex.left _ _ h
  · have he : pc1 = pc2 := Nat.le_antisymm h1 h
    subst he
    exact Prod.Lex.right _ h2

/-- The child loop of src/kdl.rs `process_panes_in_node`: panes among the
children are processed with the inherited flag and then recursed into
(their just-mutated children); children with any other name are skipped
entirely. -/
def panesLoop (f : Bool) : List KNode → List KNode × List Change
  | [] => ([], [])
  | c :: rest =>
    if hc : KNode.name c = "pane".toList then
      let pr := process_single_pane c f
      let inner := panesLoop f ((KNode.children pr.1).getD [])
      let c2 := if (KNode.children pr.1).isSome
                then KNode.withChildren pr.1 (some inner.1) else pr.1
      let restr := panesLoop f rest
      (c2 :: restr.1, pr.2 ++ inner.2 ++ restr.2)
    else
      let restr := panesLoop f rest
      (c :: restr.1, restr.2)
termination_by cs => (pcList cs, sizeOf cs)
decreasing_by
  · apply prodLexLeft
    have h1 := psp_childrenPc_lt _ f hc
    simp only [pcList_cons]
    omega
  · apply prodLexCons
    · simp only [pcList_cons]
      omega
    · simp only [List.cons.sizeOf_spec]
      omega
  · apply prodLexCons
    · simp only [pcList_cons]
      omega
    · simp only [List.cons.sizeOf_spec]
      omega

/-- src/kdl.rs `process_panes_in_node`. -/
def process_panes_in_node (n : KNode) (f : Bool) : KNode × List Change :=
  match KNode.children n with
  | none => (n, [])
  | some cs =>
    let r := panesLoop f cs
    (KNode.withChildren n (some r.1), r.2)

/-- src/kdl.rs `process_nodes_recursive`. -/
def process_nodes_recursive : List KNode → List KNode × List Change
  | [] => ([], [])
  | n :: rest =>
    if KNode.name n = "tab".toList then
      let hd := process_panes_in_node n (is_direnv_tab n)
      let restr := process_nodes_recursive rest
      (hd.1 :: restr.1, hd.2 ++ restr.2)
    else if hp : KNode.name n = "pane".toList then
      let pr := process_single_pane n false
      let inner := process_nodes_recursive ((KNode.children pr.1).getD [])
      let n2 := if (KNode.children pr.1).isSome
                then KNode.withChildren pr.1 (some inner.1) else pr.1
      let restr := process_nodes_recursive rest
      (n2 :: restr.1, pr.2 ++ inner.2 ++ restr.2)
    else
      match hch : KNode.children n with
      | none =>
        let restr := process_nodes_recursive rest
        (n :: restr.1, restr.2)
      | some cs =>
        let inner := process_nodes_recursive cs
        let restr := process_nodes_recursive rest
        (KNode.withChildren n (some inner.1) :: restr.1, inner.2 ++ restr.2)
termination_by cs => (pcList cs, sizeOf cs)
decreasing_by
  · apply prodLexCons
    · simp only [pcList_cons]
      omega
    · simp only [List.cons.sizeOf_spec]
      omega
  · apply prodLexLeft
    have h1 := psp_childrenPc_lt n false hp
    simp only [pcList_cons]
    omega
  · apply prodLexCons
    · simp only [pcList_cons]
      omega
    · simp only [List.cons.sizeOf_spec]
      omega
  · apply prodLexCons
    · simp only [pcList_cons]
      omega
    · simp only [List.cons.sizeOf_spec]
      omega
  · apply prodLexCons
    · have h3 := pcN_children_eq n
      rw [hch] at h3
      simp only [Option.getD_some] at h3
      simp only [pcList_cons]
      omega
    · have hsz := sizeOf_children_lt n cs hch
      simp only [List.cons.sizeOf_spec]
      omega
  · apply prodLexCons
    · simp only [pcList_cons]
      omega
    · simp only [List.cons.sizeOf_spec]
      omega

/-- src/kdl.rs `process_kdl_content`, parameterized by the external kdl
parser: on parse failure the original content is returned with no
changes, otherwise the processed document is re-serialized. -/
def process_kdl_content (parse : Str → Option (List KNode)) (content : Str) :
    Str × List Change :=
  match parse content with
  | none => (content, [])
  | some nodes =>
    let r := process_nodes_recursive nodes
    (serializeList r.1, r.2)


mutual

theorem nodeBEq_iff : ∀ (a b : KNode), nodeBEq a b = true ↔ a = b
  | .mk l1 n1 e1 c1, .mk l2 n2 e2 c2 => by
    simp only [nodeBEq, Bool.and_eq_true, decide_eq_true_eq, optBEq_iff c1 c2,
      KNode.mk.injEq, and_assoc]

theorem optBEq_iff : ∀ (a b : Option (List KNode)), optBEq a b = true ↔ a = b
  | none, none => by simp [optBEq]
  | none, some b => by simp [optBEq]
  | some a, none => by simp [optBEq]
  | some a, some b => by simp [optBEq, nodesBEq_iff a b]

theorem nodesBEq_iff : ∀ (a b : List KNode), nodesBEq a b = true ↔ a = b
  | [], [] => by simp [nodesBEq]
  | [], b :: bs => by simp [nodesBEq]
  | a :: as, [] => by simp [nodesBEq]
  | a :: as, b :: bs => by
    simp [nodesBEq, Bool.and_eq_true, nodeBEq_iff a b, nodesBEq_iff as bs]

end

instance : DecidableEq KNode := fun a b => decidable_of_iff _ (nodeBEq_iff a b)

/-! ## Conditional unfolding lemmas for the tree walk -/

theorem panesLoop_nil (f : Bool) : panesLoop f [] = ([], []) := by
  simp [panesLoop]

theorem panesLoop_cons_pane (f : Bool) (c : KNode) (rest : List KNode)
    (h : KNode.name c = "pane".toList) :
    panesLoop f (c :: rest) =
      ((if (KNode.children (process_single_pane c f).1).isSome
        then KNode.withChildren (process_single_pane c f).1
          (some (panesLoop f ((KNode.children (process_single_pane c f).1).getD [])).1)
        else (process_single_pane c f).1) :: (panesLoop f rest).1,
       (process_single_pane c f).2 ++
         (panesLoop f ((KNode.children (process_single_pane c f).1).getD [])).2 ++
         (panesLoop f rest).2) := by
  conv_lhs => rw [panesLoop]
  rw [dif_pos h]

theorem panesLoop_cons_other (f : Bool) (c : KNode) (rest : List KNode)
    (h : ¬ KNode.name c = "pane".toList) :
    panesLoop f (c :: rest) = (c :: (panesLoop f rest).1, (panesLoop f rest).2) := by
  conv_lhs => rw [panesLoop]
  rw [dif_neg h]

theorem pnr_nil : process_nodes_recursive [] = ([], []) := by
  simp [process_nodes_recursive]

theorem pnr_cons_tab (n : KNode) (rest : List KNode)
    (h : KNode.name n = "tab".toList) :
    process_nodes_recursive (n :: rest) =
      ((process_panes_in_node n (is_direnv_tab n)).1 :: (process_nodes_recursive rest).1,
       (process_panes_in_node n (is_direnv_tab n)).2 ++ (process_nodes_recursive rest).2) := by
  conv_lhs => rw [process_nodes_recursive]
  rw [if_pos h]

theorem pnr_cons_pane (n : KNode) (rest : List KNode)
    (h1 : ¬ KNode.name n = "tab".toList) (h2 : KNode.name n = "pane".toList) :
    process_nodes_recursive (n :: rest) =
      ((if (KNode.children (process_single_pane n false).1).isSome
        then KNode.withChildren (process_single_pane n false).1
          (some (process_nodes_recursive
            ((KNode.children (process_single_pane n false).1).getD [])).1)
        else (process_single_pane n false).1) :: (process_nodes_recursive rest).1,
       (process_single_pane n false).2 ++
         (process_nodes_recursive
           ((KNode.children (process_single_pane n false).1).getD [])).2 ++
         (process_nodes_recursive rest).2) := by
  conv_lhs => rw [process_nodes_recursive]
  rw [if_neg h1, dif_pos h2]

/-! ## Splitting and joining lemmas for the command simplifier -/

theorem splitOnChar_cons (c : Char) (s : Str) :
    splitOnChar ' ' (c :: s) =
      if c = ' ' then [] :: splitOnChar ' ' s
      else
        match splitOnChar ' ' s with
        | [] => [[c]]
        | p :: ps => (c :: p) :: ps := rfl

theorem splitOnChar_no_sep (t : Str) (h : ' ' ∉ t) :
    splitOnChar ' ' t = [t] := by
  induction t with
  | nil => rfl
  | cons c cs ih =>
    have hc : ¬(c = ' ') := fun he => h (he ▸ List.mem_cons_self c cs)
    have hrest : ' ' ∉ cs := fun hm => h (List.mem_cons_of_mem c hm)
    rw [splitOnChar_cons, if_neg hc, ih hrest]

theorem splitOnChar_append (t s : Str) (h : ' ' ∉ t) :
    splitOnChar ' ' (t ++ ' ' :: s) = t :: splitOnChar ' ' s := by
  induction t with
  | nil =>
    simp only [List.nil_append]
    rw [splitOnChar_cons, if_pos rfl]
  | cons c cs ih =>
    have hc : ¬(c = ' ') := fun he => h (he ▸ List.mem_cons_self c cs)
    have hrest : ' ' ∉ cs := fun hm => h (List.mem_cons_of_mem c hm)
    simp only [List.cons_append]
    rw [splitOnChar_cons, if_neg hc, ih hrest]

theorem splitOnChar_joinSp : ∀ ts : List Str, ts ≠ [] → (∀ t ∈ ts, ' ' ∉ t) →
    splitOnChar ' ' (joinSp ts) = ts
  | [], hne, _ => absurd rfl hne
  | [t], _, h => by
    rw [show joinSp [t] = t from rfl]
    exact splitOnChar_no_sep t (h t (List.mem_singleton.mpr rfl))
  | t :: u :: rest, _, h => by
    rw [show joinSp (t :: u :: rest) = t ++ ' ' :: joinSp (u :: rest) from rfl]
    rw [splitOnChar_append t _ (h t (List.mem_cons_self t _))]
    rw [splitOnChar_joinSp (u :: rest) (by simp)
      (fun x hx => h x (List.mem_cons_of_mem t hx))]

theorem takeWhile_append_stop {α : Type} (p : α → Bool) (l1 l2 : List α)
    (h : (l1.takeWhile p).length < l1.length) :
    (l1 ++ l2).takeWhile p = l1.takeWhile p := by
  induction l1 with
  | nil => simp at h
  | cons a as ih =>
    by_cases hp : p a = true
    · simp only [List.takeWhile_cons, hp, if_true, List.cons_append,
        List.length_cons] at h ⊢
      rw [ih (by omega)]
    · simp only [List.takeWhile_cons, hp, List.cons_append]
      simp only [Bool.false_eq_true, if_false]

theorem takeWhile_append_stopElem {α : Type} (p : α → Bool) (x : α)
    (hx : p x = false) (l : List α) :
    (l ++ [x]).takeWhile p = l.takeWhile p := by
  induction l with
  | nil =>
    simp only [List.nil_append, List.takeWhile_cons, hx]
    simp [List.takeWhile_nil]
  | cons a as ih =>
    by_cases hp : p a = true
    · simp only [List.cons_append, List.takeWhile_cons, hp, if_true, ih]
    · simp only [List.cons_append, List.takeWhile_cons, hp]
      simp only [Bool.false_eq_true, if_false]

/-- Behavior of src/nvim.rs `format_nvim` on a space-joined token list
whose leading token passes the `nvim` / `nvim.exe` suffix guard: the
result is `nvim ` followed by the reversed backward scan over all
tokens. -/
theorem format_nvim_tokens (first : Str) (rest : List Str)
    (hsp : ∀ t ∈ first :: rest, ' ' ∉ t)
    (hguard : (!(endsW "nvim".toList first) && !(endsW "nvim.exe".toList first)) = false) :
    format_nvim (joinSp (first :: rest)) =
      "nvim ".toList ++ joinSp (((first :: rest).reverse.takeWhile goodTok).reverse) := by
  unfold format_nvim
  rw [splitOnChar_joinSp _ (by simp) hsp]
  dsimp only
  rw [hguard]
  simp only [Bool.false_eq_true, if_false]

/-- The same computation for the src/main.rs copy. -/
theorem format_nvim_main_tokens (first : Str) (rest : List Str)
    (hsp : ∀ t ∈ first :: rest, ' ' ∉ t)
    (hguard : (!(endsW "nvim".toList first) && !(endsW "nvim.exe".toList first)) = false) :
    format_nvim_main (joinSp (first :: rest)) =
      "nvim ".toList ++ joinSp (((first :: rest).reverse.takeWhile goodTokMain).reverse) := by
  unfold format_nvim_main
  rw [splitOnChar_joinSp _ (by simp) hsp]
  dsimp only
  rw [hguard]
  simp only [Bool.false_eq_true, if_false]

/-! ## Getter and setter round-trip lemmas -/

theorem set_entry_entries (n : KNode) (k v : Str) :
    KNode.entries (set_entry_string_value n k v) = setEntryList k v (KNode.entries n) := by
  cases n; rfl

theorem findEntryNamed_setEntryList (k v : Str) (es : List KEntry) :
    ∃ e, findEntryNamed k (setEntryList k v es) = some e ∧ e.value = .str v := by
  induction es with
  | nil =>
    refine ⟨⟨some k, none, .str v⟩, ?_, rfl⟩
    simp [setEntryList, findEntryNamed]
  | cons e es ih =>
    unfold setEntryList
    by_cases h : e.ename = some k
    · rw [if_pos h]
      refine ⟨⟨e.ename, e.eleading, .str v⟩, ?_, rfl⟩
      unfold findEntryNamed
      rw [if_pos h]
    · rw [if_neg h]
      rcases ih with ⟨e2, he2, hv2⟩
      refine ⟨e2, ?_, hv2⟩
      unfold findEntryNamed
      rw [if_neg h, he2]

theorem get_set_entry (n : KNode) (k v : Str) :
    get_entry_string_value (set_entry_string_value n k v) k = some v := by
  unfold get_entry_string_value
  rw [set_entry_entries]
  rcases findEntryNamed_setEntryList k v (KNode.entries n) with ⟨e, he, hv⟩
  rw [he]
  dsimp only
  rw [hv]
  rfl

theorem get_entry_eq_of_entries (a b : KNode)
    (h : KNode.entries a = KNode.entries b) (k : Str) :
    get_entry_string_value a k = get_entry_string_value b k := by
  unfold get_entry_string_value
  rw [h]

theorem withLeading_name (c : KNode) (l : Option Str) :
    KNode.name (KNode.withLeading c l) = KNode.name c := by
  cases c; rfl

theorem findArgsNode_replaceFirst (x : KNode) (hx : KNode.name x = "args".toList) :
    ∀ (cs : List KNode) (found : KNode), findArgsNode cs = some found →
      findArgsNode (replaceFirstArgs x cs) = some x := by
  intro cs
  induction cs with
  | nil => intro found h; simp [findArgsNode] at h
  | cons c rest ih =>
    intro found h
    unfold replaceFirstArgs
    by_cases hc : KNode.name c = "args".toList
    · rw [if_pos hc]
      unfold findArgsNode
      rw [if_pos hx]
    · rw [if_neg hc]
      unfold findArgsNode
      rw [if_neg hc]
      unfold findArgsNode at h
      rw [if_neg hc] at h
      exact ih found h

theorem argsVals_newArgs (as : List Str) :
    argsVals (as.map (fun a => ⟨none, none, .str a⟩)) = as := by
  induction as with
  | nil => rfl
  | cons a rest ih =>
    unfold argsVals at ih ⊢
    simp only [List.map_cons, List.filter_cons]
    simp only [decide_True, if_true]
    simp only [List.filterMap_cons]
    simpa [KVal.asString] using ih

theorem newArgsNode_name (l : Option Str) (as : List Str) :
    KNode.name (newArgsNode l as) = "args".toList := rfl

theorem newArgsNode_entries (l : Option Str) (as : List Str) :
    KNode.entries (newArgsNode l as) = as.map (fun a => ⟨none, none, .str a⟩) := rfl

theorem findArgsNode_cons_args (x : KNode) (hx : KNode.name x = "args".toList)
    (cs : List KNode) : findArgsNode (x :: cs) = some x := by
  unfold findArgsNode
  rw [if_pos hx]

theorem get_args_set_args (p : KNode) (as : List Str) :
    get_args_from_children (set_args_in_children p as) = as := by
  unfold set_args_in_children
  dsimp only
  cases h : findArgsNode ((KNode.children p).getD []) with
  | some found =>
    dsimp only
    unfold get_args_from_children
    rw [withChildren_children]
    dsimp only
    rw [findArgsNode_replaceFirst _ (newArgsNode_name _ _) _ found h]
    dsimp only
    rw [newArgsNode_entries, argsVals_newArgs]
  | none =>
    dsimp only
    unfold get_args_from_children
    rw [withChildren_children]
    dsimp only
    rw [findArgsNode_cons_args _ (newArgsNode_name _ _)]
    dsimp only
    rw [newArgsNode_entries, argsVals_newArgs]

theorem findArgsNode_filter_none (cs : List KNode) :
    findArgsNode (cs.filter (fun c => KNode.name c ≠ "args".toList)) = none := by
  induction cs with
  | nil => rfl
  | cons c rest ih =>
    rw [List.filter_cons]
    by_cases hc : KNode.name c = "args".toList
    · simp only [hc, decide_True, not_true_eq_false, decide_False,
        Bool.false_eq_true, if_false]
      exact ih
    · simp only [ne_eq, hc, not_false_eq_true, decide_True, if_true]
      unfold findArgsNode
      rw [if_neg hc]
      exact ih

theorem remove_args_no_args (p : KNode) :
    ∀ c ∈ (KNode.children (remove_args_from_children p)).getD [],
      KNode.name c ≠ "args".toList := by
  unfold remove_args_from_children
  cases h : KNode.children p with
  | none =>
    rw [h]
    intro c hc
    simp at hc
  | some cs =>
    rw [withChildren_children]
    intro c hc
    simp only [Option.getD_some, List.mem_filter, decide_eq_true_eq, ne_eq] at hc
    exact hc.2

theorem remove_args_get_entry (p : KNode) (k : Str) :
    get_entry_string_value (remove_args_from_children p) k =
      get_entry_string_value p k :=
  get_entry_eq_of_entries _ _ (remove_args_entries p) k

theorem set_args_get_entry (p : KNode) (as : List Str) (k : Str) :
    get_entry_string_value (set_args_in_children p as) k =
      get_entry_string_value p k :=
  get_entry_eq_of_entries _ _ (set_args_entries p as) k


/-! ## Claims -/

/-- C6: the Filename Classifier returns false exactly when the token holds
a NUL character or one of `< > " : | ? ; =`; in particular it accepts the
empty string, `.`, `..` and slash-containing paths. -/
theorem c6_filename_classifier :
    (∀ s : Str, could_be_filename s = false ↔
      ∃ c ∈ s, c.toNat = 0 ∨ c ∈ ['<', '>', '"', ':', '|', '?', ';', '=']) ∧
    could_be_filename [] = true ∧
    could_be_filename ".".toList = true ∧
    could_be_filename "..".toList = true ∧
    could_be_filename "a/b/c/foo.txt".toList = true := by
  refine ⟨?_, by decide, by decide, by decide, by decide⟩
  intro s
  unfold could_be_filename
  split
  · rename_i h1
    simp only [eq_self_iff_true, true_iff]
    rcases List.any_eq_true.mp h1 with ⟨c, hc, hz⟩
    exact ⟨c, hc, Or.inl (of_decide_eq_true hz)⟩
  · split
    · rename_i h1 h2
      simp only [eq_self_iff_true, true_iff]
      rcases List.any_eq_true.mp h2 with ⟨c, hc, hm⟩
      exact ⟨c, hc, Or.inr (of_decide_eq_true hm)⟩
    · rename_i h1 h2
      constructor
      · intro ht
        exact absurd ht (by decide)
      · rintro ⟨c, hc, hz | hm⟩
        · exact absurd (List.any_eq_true.mpr ⟨c, hc, decide_eq_true hz⟩) h1
        · exact absurd (List.any_eq_true.mpr ⟨c, hc, decide_eq_true hm⟩) h2

/-- C8: when the content fails to parse as a KDL document,
`process_kdl_content` returns the original content unchanged and an empty
Change list. -/
theorem c8_parse_failure (parse : Str → Option (List KNode)) (content : Str)
    (h : parse content = none) :
    process_kdl_content parse content = (content, []) := by
  unfold process_kdl_content
  rw [h]

/-- Witness for C8 at a concrete failing parse. -/
theorem c8_parse_failure_witness :
    process_kdl_content (fun _ => none) "pane command=".toList =
      ("pane command=".toList, []) :=
  c8_parse_failure _ _ rfl

/-- C10: a pane whose first `command`-named entry holds a non-string value
is treated exactly like a pane with no command entry: left unmutated with
no Change, for either flag value. -/
theorem c10_nonstring_command (p : KNode) (f : Bool) (e : KEntry)
    (h1 : findEntryNamed "command".toList (KNode.entries p) = some e)
    (h2 : KVal.asString e.value = none) :
    process_single_pane p f = (p, []) := by
  unfold process_single_pane get_entry_string_value
  rw [h1]
  dsimp only
  rw [h2]

/-- Witness for C10: a pane with `command=5`. -/
theorem c10_nonstring_command_witness :
    process_single_pane
        (.mk none "pane".toList [⟨some "command".toList, some " ".toList, .num 5⟩] none)
        true =
      ((.mk none "pane".toList [⟨some "command".toList, some " ".toList, .num 5⟩] none), []) :=
  c10_nonstring_command _ true ⟨some "command".toList, some " ".toList, .num 5⟩
    (by decide) (by decide)

/-- C1 (code bug): processing Scenario D yields `pane command="nvim"` with
no args, and re-processing that output returns the identical document but
records a spurious Change (original `nvim`, simplified `nvim ` with a
trailing space), so the Change list of the second run is not empty. -/
theorem c1_idempotence_code_bug :
    process_nodes_recursive [paneD0] =
      ([paneD1], [⟨[], "/usr/bin/nvim".toList, "nvim ".toList⟩]) ∧
    process_nodes_recursive [paneD1] =
      ([paneD1], [⟨[], "nvim".toList, "nvim ".toList⟩]) ∧
    (process_nodes_recursive [paneD1]).2 ≠ [] := by
  have h1 : process_nodes_recursive [paneD0] =
      ([paneD1], [⟨[], "/usr/bin/nvim".toList, "nvim ".toList⟩]) := by
    rw [pnr_cons_pane _ _ (by decide) (by decide)]
    rw [show (KNode.children (process_single_pane paneD0 false).1).getD [] =
        ([] : List KNode) from by decide]
    rw [pnr_nil]
    decide
  have h2 : process_nodes_recursive [paneD1] =
      ([paneD1], [⟨[], "nvim".toList, "nvim ".toList⟩]) := by
    rw [pnr_cons_pane _ _ (by decide) (by decide)]
    rw [show (KNode.children (process_single_pane paneD1 false).1).getD [] =
        ([] : List KNode) from by decide]
    rw [pnr_nil]
    decide
  exact ⟨h1, h2, by rw [h2]; decide⟩

/-- C3 counterexample: with an empty trailing run the simplifier returns
`nvim ` with a trailing space, not the literal `nvim`; and the backward
scan also stops at a token ending in `nvim` (here `mynvim`), which the
claim does not allow for. -/
theorem c3_counterexample :
    format_nvim "nvim".toList = "nvim ".toList ∧
    "nvim ".toList ≠ "nvim".toList ∧
    format_nvim "/usr/bin/nvim a mynvim b".toList = "nvim b".toList := by decide

/-- C3 amended: for a space-joined token list whose first token ends in
`nvim` or `nvim.exe`, if the maximal trailing run of remaining tokens in
which every token passes the Classifier, none starts with `-`, and none
ends in `nvim` stops before consuming the leading token (the run does not
cover all remaining tokens, or the leading token itself fails the scan
test), the simplifier returns exactly `nvim ` (with a trailing space even
when the run is empty) followed by the space-join of the run. -/
theorem c3_trailing_run_amended (first : Str) (rest : List Str)
    (hsp : ∀ t ∈ first :: rest, ' ' ∉ t)
    (hguard : endsW "nvim".toList first = true ∨ endsW "nvim.exe".toList first = true)
    (hstop : (rest.reverse.takeWhile goodTok).length < rest.length ∨
      goodTok first = false) :
    format_nvim (joinSp (first :: rest)) =
      "nvim ".toList ++ joinSp ((rest.reverse.takeWhile goodTok).reverse) := by
  have hg : (!(endsW "nvim".toList first) && !(endsW "nvim.exe".toList first)) = false := by
    rcases hguard with h | h
    · rw [h]
      simp only [Bool.not_true, Bool.false_and]
    · rw [h]
      simp only [Bool.not_true, Bool.and_false]
  rw [format_nvim_tokens first rest hsp hg]
  have hrev : (first :: rest).reverse = rest.reverse ++ [first] := by
    simp [List.reverse_cons]
  rw [hrev]
  rcases hstop with h | h
  · rw [takeWhile_append_stop _ _ _ (by simpa using h)]
  · rw [takeWhile_append_stopElem _ _ h]

/-- Witness for C3 at a concrete command: the scan stops at the `x;y`
token (Classifier failure) leaving `a.txt` as the trailing run. -/
theorem c3_trailing_run_amended_witness :
    format_nvim "/usr/bin/nvim --cmd x;y a.txt".toList = "nvim a.txt".toList := by
  have h := c3_trailing_run_amended "/usr/bin/nvim".toList
    ["--cmd".toList, "x;y".toList, "a.txt".toList] (by decide) (by decide) (by decide)
  rw [show joinSp ["/usr/bin/nvim".toList, "--cmd".toList, "x;y".toList,
      "a.txt".toList] = "/usr/bin/nvim --cmd x;y a.txt".toList from by decide] at h
  rw [h]
  decide

/-- C9 counterexample: the two copies differ on `nvim asdf`, because only
the src/nvim.rs copy stops the backward scan at tokens ending in `nvim`. -/
theorem c9_counterexample :
    format_nvim_main "nvim asdf".toList = "nvim nvim asdf".toList ∧
    format_nvim "nvim asdf".toList = "nvim asdf".toList ∧
    format_nvim_main "nvim asdf".toList ≠ format_nvim "nvim asdf".toList := by decide

/-- C9 amended: the two copies agree on every input whose first token does
not end in `nvim` or `nvim.exe` (both pass the input through unchanged),
and on every input where the two backward scans accumulate the same
token run; they are not the same function in general. -/
theorem c9_copies_agreement_amended :
    (∀ (s first : Str) (others : List Str),
      splitOnChar ' ' s = first :: others →
      endsW "nvim".toList first = false → endsW "nvim.exe".toList first = false →
      format_nvim_main s = format_nvim s) ∧
    (∀ s : Str,
      (splitOnChar ' ' s).reverse.takeWhile goodTokMain =
        (splitOnChar ' ' s).reverse.takeWhile goodTok →
      format_nvim_main s = format_nvim s) := by
  constructor
  · intro s first others h h1 h2
    unfold format_nvim format_nvim_main
    rw [h]
    dsimp only
    rw [h1, h2]
    have ht : (!false && !false) = true := rfl
    rw [if_pos ht, if_pos ht]
  · intro s hagree
    unfold format_nvim format_nvim_main
    cases hsp : splitOnChar ' ' s with
    | nil => rfl
    | cons first others =>
      dsimp only
      rw [hsp] at hagree
      by_cases hb : (!(endsW "nvim".toList first) && !(endsW "nvim.exe".toList first)) = true
      · rw [if_pos hb, if_pos hb]
      · rw [if_neg hb, if_neg hb, hagree]

/-- Witness for C9 at a concrete non-editor command. -/
theorem c9_copies_agreement_amended_witness :
    format_nvim_main "foo bar".toList = format_nvim "foo bar".toList :=
  c9_copies_agreement_amended.1 "foo bar".toList "foo".toList ["bar".toList]
    (by decide) (by decide) (by decide)

/-- C7: for a pane in a non-direnv tab whose command contains `nvim` and
whose simplified full command differs from the original, the command entry
becomes `nvim`; with a non-empty derived file list the `args` child holds
exactly those files, with an empty list the `args` child is removed
entirely; the Change records the full and the simplified command. -/
theorem c7_nvim_simplification (p : KNode) (cmd : Str)
    (hcmd : get_entry_string_value p "command".toList = some cmd)
    (hn : containsSub cmd "nvim".toList = true)
    (hne : format_nvim (full_cmd cmd (get_args_from_children p)) ≠
      full_cmd cmd (get_args_from_children p)) :
    get_entry_string_value (process_single_pane p false).1 "command".toList =
      some "nvim".toList ∧
    (splitWs (stripPreD "nvim ".toList
        (format_nvim (full_cmd cmd (get_args_from_children p)))) ≠ [] →
      get_args_from_children (process_single_pane p false).1 =
        splitWs (stripPreD "nvim ".toList
          (format_nvim (full_cmd cmd (get_args_from_children p))))) ∧
    (splitWs (stripPreD "nvim ".toList
        (format_nvim (full_cmd cmd (get_args_from_children p)))) = [] →
      ∀ c ∈ (KNode.children (process_single_pane p false).1).getD [],
        KNode.name c ≠ "args".toList) ∧
    (process_single_pane p false).2 =
      [⟨[], full_cmd cmd (get_args_from_children p),
        format_nvim (full_cmd cmd (get_args_from_children p))⟩] := by
  unfold process_single_pane
  rw [hcmd]
  dsimp only
  simp only [Bool.false_eq_true, if_false]
  rw [if_pos hn]
  unfold apply_nvim_simplification
  dsimp only
  rw [if_neg hne]
  by_cases hf : splitWs (stripPreD "nvim ".toList
      (format_nvim (full_cmd cmd (get_args_from_children p)))) = []
  · rw [if_neg (not_not_intro hf)]
    refine ⟨?_, ?_, ?_, rfl⟩
    · rw [remove_args_get_entry, get_set_entry]
    · intro hcon
      exact absurd hf hcon
    · intro _
      exact remove_args_no_args _
  · rw [if_pos hf]
    refine ⟨?_, ?_, ?_, rfl⟩
    · rw [set_args_get_entry, get_set_entry]
    · intro _
      exact get_args_set_args _ _
    · intro hcon
      exact absurd hcon hf

/-- Witness for C7 at Scenario D: `pane command="/usr/bin/nvim"` with an
empty `args` child ends up as `command="nvim"` with no `args` child. -/
theorem c7_nvim_simplification_witness :
    get_entry_string_value (process_single_pane paneD0 false).1 "command".toList =
      some "nvim".toList ∧
    (∀ c ∈ (KNode.children (process_single_pane paneD0 false).1).getD [],
      KNode.name c ≠ "args".toList) := by
  have h := c7_nvim_simplification paneD0 "/usr/bin/nvim".toList
    (by decide) (by decide) (by decide)
  exact ⟨h.1, h.2.2.1 (by decide)⟩

/-- C4 counterexample: for the pane `command="nvimx"` in a direnv tab,
the command does contain `nvim`, yet the recorded cmd_name is `nvimx`,
not `nvim` as the claim requires. -/
theorem c4_counterexample :
    containsSub "nvimx".toList "nvim".toList = true ∧
    get_entry_string_value paneNvimx "command".toList = some "nvimx".toList ∧
    get_args_from_children (process_single_pane paneNvimx true).1 =
      ["exec".toList, ".".toList, "nvimx".toList] ∧
    ["exec".toList, ".".toList, "nvimx".toList] ≠
      ["exec".toList, ".".toList, "nvim".toList] := by decide

/-- C4 amended: a pane whose command is exactly `direnv` is untouched with
no Change; otherwise the command becomes `direnv`, the args child becomes
`exec . cmd_name` followed by the derived file args when non-empty, else
by the original args when non-empty, where `(cmd_name, file_args)` are
read off the simplified command (`nvim` and the remainder when it starts
with `nvim ` or equals `nvim`, the simplified command itself and no files
otherwise), and a Change records the full command and `direnv ` plus the
joined new args. -/
theorem c4_direnv_transform_amended (p : KNode) (cmd : Str)
    (hcmd : get_entry_string_value p "command".toList = some cmd) :
    (cmd = "direnv".toList → process_single_pane p true = (p, [])) ∧
    (cmd ≠ "direnv".toList →
      get_entry_string_value (process_single_pane p true).1 "command".toList =
        some "direnv".toList ∧
      get_args_from_children (process_single_pane p true).1 =
        direnvNewArgs
          (cmdNameAndFiles (if containsSub cmd "nvim".toList = true then
            format_nvim (full_cmd cmd (get_args_from_children p)) else cmd)).1
          (cmdNameAndFiles (if containsSub cmd "nvim".toList = true then
            format_nvim (full_cmd cmd (get_args_from_children p)) else cmd)).2
          (get_args_from_children p) ∧
      (process_single_pane p true).2 =
        [⟨[], full_cmd cmd (get_args_from_children p),
          "direnv ".toList ++ joinSp (direnvNewArgs
            (cmdNameAndFiles (if containsSub cmd "nvim".toList = true then
              format_nvim (full_cmd cmd (get_args_from_children p)) else cmd)).1
            (cmdNameAndFiles (if containsSub cmd "nvim".toList = true then
              format_nvim (full_cmd cmd (get_args_from_children p)) else cmd)).2
            (get_args_from_children p))⟩]) := by
  constructor
  · intro hd
    unfold process_single_pane
    rw [hcmd]
    dsimp only
    rw [if_pos rfl]
    unfold apply_direnv_transform
    rw [if_pos hd]
  · intro hd
    unfold process_single_pane
    rw [hcmd]
    dsimp only
    rw [if_pos rfl]
    unfold apply_direnv_transform
    rw [if_neg hd]
    dsimp only
    refine ⟨?_, ?_, rfl⟩
    · rw [set_args_get_entry, get_set_entry]
    · rw [get_args_set_args]

/-- Witness for C4 at a pane `command="bacon"` inside a direnv tab. -/
theorem c4_direnv_transform_amended_witness :
    get_entry_string_value (process_single_pane paneBacon true).1 "command".toList =
      some "direnv".toList ∧
    get_args_from_children (process_single_pane paneBacon true).1 =
      ["exec".toList, ".".toList, "bacon".toList] ∧
    (process_single_pane paneBacon true).2 =
      [⟨[], "bacon".toList, "direnv exec . bacon".toList⟩] := by
  have h := (c4_direnv_transform_amended paneBacon "bacon".toList (by decide)).2 (by decide)
  refine ⟨h.1, ?_, ?_⟩
  · rw [h.2.1]
    decide
  · rw [h.2.2]
    decide

/-! ## The C2 frame property -/


theorem entriesFrame_refl (es : List KEntry) : entriesFrame es es :=
  ⟨rfl, fun _ _ _ => ⟨rfl, rfl, fun _ => rfl⟩⟩

theorem childFrame_refl (cs : List KNode) : childFrame cs cs :=
  Or.inl rfl

theorem setEntryList_frame (k v : Str) (es : List KEntry) (e : KEntry)
    (hf : findEntryNamed k es = some e) (hk : k = "command".toList) :
    entriesFrame es (setEntryList k v es) := by
  induction es with
  | nil => simp [findEntryNamed] at hf
  | cons a es ih =>
    unfold setEntryList
    by_cases h : a.ename = some k
    · rw [if_pos h]
      refine ⟨by simp, ?_⟩
      intro i h1 h2
      cases i with
      | zero =>
        refine ⟨rfl, rfl, ?_⟩
        intro hne
        rw [hk] at h
        exact absurd h hne
      | succ j => exact ⟨rfl, rfl, fun _ => rfl⟩
    · rw [if_neg h]
      have hf2 : findEntryNamed k es = some e := by
        unfold findEntryNamed at hf
        rw [if_neg h] at hf
        exact hf
      rcases ih hf2 with ⟨hl, hp⟩
      refine ⟨by simp [hl], ?_⟩
      intro i h1 h2
      cases i with
      | zero => exact ⟨rfl, rfl, fun _ => rfl⟩
      | succ j =>
        have h1' : j < es.length := by simpa using h1
        have h2' : j < (setEntryList k v es).length := by simpa using h2
        exact hp j h1' h2'

theorem filter_replaceFirstArgs (x : KNode) (hx : KNode.name x = "args".toList)
    (cs : List KNode) :
    (replaceFirstArgs x cs).filter (fun c => KNode.name c ≠ "args".toList) =
      cs.filter (fun c => KNode.name c ≠ "args".toList) := by
  induction cs with
  | nil => rfl
  | cons c rest ih =>
    unfold replaceFirstArgs
    by_cases hc : KNode.name c = "args".toList
    · rw [if_pos hc, List.filter_cons, List.filter_cons, hx, hc]
      simp
    · rw [if_neg hc, List.filter_cons, List.filter_cons]
      simp only [ne_eq, hc, not_false_eq_true, decide_True, if_true, ih]

theorem findArgsNode_none_no_args (cs : List KNode)
    (h : findArgsNode cs = none) :
    ∀ c ∈ cs, ¬(KNode.name c = "args".toList) := by
  induction cs with
  | nil => intro c hc; simp at hc
  | cons c rest ih =>
    unfold findArgsNode at h
    by_cases hc : KNode.name c = "args".toList
    · rw [if_pos hc] at h
      cases h
    · rw [if_neg hc] at h
      intro d hd
      rcases List.mem_cons.mp hd with he | hm
      · rw [he]; exact hc
      · exact ih h d hm

theorem filter_all_notArgs (cs : List KNode)
    (h : ∀ c ∈ cs, ¬(KNode.name c = "args".toList)) :
    cs.filter (fun c => KNode.name c ≠ "args".toList) = cs := by
  apply List.filter_eq_self.mpr
  intro c hc
  simp only [ne_eq, decide_eq_true_eq]
  exact h c hc

theorem filter_notArgs_idem (cs : List KNode) :
    (cs.filter (fun c => KNode.name c ≠ "args".toList)).filter
        (fun c => KNode.name c ≠ "args".toList) =
      cs.filter (fun c => KNode.name c ≠ "args".toList) := by
  induction cs with
  | nil => rfl
  | cons c rest ih =>
    rw [List.filter_cons]
    by_cases hc : KNode.name c = "args".toList
    · simp only [hc, not_true_eq_false, decide_False, Bool.false_eq_true, if_false]
      exact ih
    · simp only [ne_eq, hc, not_false_eq_true, decide_True, if_true]
      rw [List.filter_cons]
      simp only [ne_eq, hc, not_false_eq_true, decide_True, if_true, ih]

theorem set_args_childFrame (p : KNode) (as : List Str) :
    childFrame ((KNode.children p).getD [])
      ((KNode.children (set_args_in_children p as)).getD []) := by
  unfold set_args_in_children
  dsimp only
  cases h : findArgsNode ((KNode.children p).getD []) with
  | some found =>
    rw [withChildren_children]
    exact Or.inl (filter_replaceFirstArgs _ (newArgsNode_name _ _) _)
  | none =>
    rw [withChildren_children]
    have hall := findArgsNode_none_no_args _ h
    cases hcs : (KNode.children p).getD [] with
    | nil =>
      apply Or.inl
      dsimp only [Option.getD_some]
      rw [List.filter_cons, newArgsNode_name]
      simp
    | cons c rest =>
      rw [hcs] at hall
      apply Or.inr
      refine ⟨c, rest, ?_, ?_⟩
      · exact filter_all_notArgs _ hall
      · dsimp only [Option.getD_some]
        rw [List.filter_cons, newArgsNode_name]
        have hc : ¬(KNode.name c = "args".toList) := hall c (List.mem_cons_self c rest)
        have hcw : ¬(KNode.name (KNode.withLeading c ((KNode.leading c).map trimLeadNL)) =
            "args".toList) := by
          rw [withLeading_name]; exact hc
        simp only [ne_eq, not_true_eq_false, decide_False, Bool.false_eq_true, if_false]
        rw [List.filter_cons]
        simp only [ne_eq, hcw, not_false_eq_true, decide_True, if_true]
        rw [filter_all_notArgs rest (fun d hd => hall d (List.mem_cons_of_mem c hd))]

theorem remove_args_childFrame (p : KNode) :
    childFrame ((KNode.children p).getD [])
      ((KNode.children (remove_args_from_children p)).getD []) := by
  cases p with
  | mk l nm es co =>
    cases co with
    | none => exact Or.inl rfl
    | some cs => exact Or.inl (filter_notArgs_idem cs)

theorem get_entry_some_find (n : KNode) (k cmd : Str)
    (h : get_entry_string_value n k = some cmd) :
    ∃ e, findEntryNamed k (KNode.entries n) = some e := by
  unfold get_entry_string_value at h
  cases hf : findEntryNamed k (KNode.entries n) with
  | none =>
    rw [hf] at h
    exact absurd h (by simp)
  | some e => exact ⟨e, rfl⟩


/-- C2 counterexample: wrapping `pane command="bacon" { start_suspended
true }` in a direnv tab inserts a fresh `args` child and strips the
leading newline from the `start_suspended` child's formatting, so the
serialization of the non-`args` children is not bit-identical to the
input. -/
theorem c2_counterexample :
    serializeList (((KNode.children (process_single_pane paneC2 true).1).getD []).filter
        (fun c => KNode.name c ≠ "args".toList)) ≠
      serializeList (((KNode.children paneC2).getD []).filter
        (fun c => KNode.name c ≠ "args".toList)) := by decide

/-- C2 amended: a pane mutation preserves the pane's own leading and name;
its entries keep their count, names and formatting, with entries not
named `command` fully unchanged; and the non-`args` children are
unchanged except that, when an `args` child is freshly inserted, the
previously-first child may have leading newlines stripped from its
leading whitespace. -/
theorem c2_frame_amended (p : KNode) (f : Bool) :
    KNode.leading (process_single_pane p f).1 = KNode.leading p ∧
    KNode.name (process_single_pane p f).1 = KNode.name p ∧
    entriesFrame (KNode.entries p) (KNode.entries (process_single_pane p f).1) ∧
    childFrame ((KNode.children p).getD [])
      ((KNode.children (process_single_pane p f).1).getD []) := by
  unfold process_single_pane
  split
  · exact ⟨rfl, rfl, entriesFrame_refl _, childFrame_refl _⟩
  · rename_i x cmd heq
    rcases get_entry_some_find p "command".toList cmd heq with ⟨e0, hfind⟩
    split
    · unfold apply_direnv_transform
      split
      · exact ⟨rfl, rfl, entriesFrame_refl _, childFrame_refl _⟩
      · dsimp only
        refine ⟨?_, ?_, ?_, ?_⟩
        · rw [set_args_leading, set_entry_leading]
        · rw [set_args_name, set_entry_name]
        · rw [set_args_entries, set_entry_entries]
          exact setEntryList_frame _ _ _ _ hfind rfl
        · have hch := set_args_childFrame
            (set_entry_string_value p "command".toList "direnv".toList)
            (direnvNewArgs
              (cmdNameAndFiles (if containsSub cmd "nvim".toList = true then
                format_nvim (full_cmd cmd (get_args_from_children p)) else cmd)).1
              (cmdNameAndFiles (if containsSub cmd "nvim".toList = true then
                format_nvim (full_cmd cmd (get_args_from_children p)) else cmd)).2
              (get_args_from_children p))
          rw [set_entry_children] at hch
          exact hch
    · split
      · unfold apply_nvim_simplification
        dsimp only
        split
        · exact ⟨rfl, rfl, entriesFrame_refl _, childFrame_refl _⟩
        · split
          · refine ⟨?_, ?_, ?_, ?_⟩
            · rw [set_args_leading, set_entry_leading]
            · rw [set_args_name, set_entry_name]
            · rw [set_args_entries, set_entry_entries]
              exact setEntryList_frame _ _ _ _ hfind rfl
            · have hch := set_args_childFrame
                (set_entry_string_value p "command".toList "nvim".toList)
                (splitWs (stripPreD "nvim ".toList
                  (format_nvim (full_cmd cmd (get_args_from_children p)))))
              rw [set_entry_children] at hch
              exact hch
          · refine ⟨?_, ?_, ?_, ?_⟩
            · rw [remove_args_leading, set_entry_leading]
            · rw [remove_args_name, set_entry_name]
            · rw [remove_args_entries, set_entry_entries]
              exact setEntryList_frame _ _ _ _ hfind rfl
            · have hch := remove_args_childFrame
                (set_entry_string_value p "command".toList "nvim".toList)
              rw [set_entry_children] at hch
              exact hch
      · exact ⟨rfl, rfl, entriesFrame_refl _, childFrame_refl _⟩

/-- Witness for C2 at the concrete direnv-wrapped pane. -/
theorem c2_frame_amended_witness :
    KNode.leading (process_single_pane paneC2 true).1 = KNode.leading paneC2 ∧
    KNode.name (process_single_pane paneC2 true).1 = KNode.name paneC2 ∧
    (KNode.entries (process_single_pane paneC2 true).1).length =
      (KNode.entries paneC2).length := by
  have h := c2_frame_amended paneC2 true
  exact ⟨h.1, h.2.1, h.2.2.1.1⟩

/-! ## C5: the scope of pane processing in the tree walk -/

theorem panesLoop_head_eq_ppn (q : KNode) (f : Bool) :
    (if (KNode.children q).isSome
     then KNode.withChildren q (some (panesLoop f ((KNode.children q).getD [])).1)
     else q) = (process_panes_in_node q f).1 := by
  unfold process_panes_in_node
  cases h : KNode.children q with
  | none => simp [h]
  | some gs => simp [h]


/-- C5 counterexample: a pane under a non-pane wrapper inside a `dr ` tab
is not processed at all — the document and the Change list come back
unchanged — even though processing it with the direnv flag would have
mutated it. -/
theorem c5_counterexample :
    is_direnv_tab tabDrWrap = true ∧
    process_nodes_recursive [tabDrWrap] = ([tabDrWrap], []) ∧
    (process_single_pane paneBaconWrapped true).2 ≠ [] := by
  refine ⟨by decide, ?_, by decide⟩
  rw [pnr_cons_tab _ _ (by decide), pnr_nil]
  have h1 : panesLoop (is_direnv_tab tabDrWrap) [wrapperNode] = ([wrapperNode], []) := by
    rw [show is_direnv_tab tabDrWrap = true from by decide]
    rw [panesLoop_cons_other _ _ _ (by decide), panesLoop_nil]
  have h2 : process_panes_in_node tabDrWrap (is_direnv_tab tabDrWrap) =
      (tabDrWrap, []) := by
    unfold process_panes_in_node
    rw [show KNode.children tabDrWrap = some [wrapperNode] from by decide]
    dsimp only
    rw [h1]
    decide
  rw [h2]
  rfl

/-- C5 amended: a top-level `tab` node is handed to the pane walk with the
flag computed by `is_direnv_tab`; within that walk, children named `pane`
are processed with that single inherited flag and recursed into, while
every child with any other name is left completely untouched (its whole
subtree included), so panes behind non-pane wrappers are not processed. -/
theorem c5_walker_scope_amended :
    (∀ (n : KNode) (rest : List KNode), KNode.name n = "tab".toList →
      process_nodes_recursive (n :: rest) =
        ((process_panes_in_node n (is_direnv_tab n)).1 :: (process_nodes_recursive rest).1,
         (process_panes_in_node n (is_direnv_tab n)).2 ++ (process_nodes_recursive rest).2)) ∧
    (∀ (f : Bool) (cs : List KNode),
      (panesLoop f cs).1.length = cs.length ∧
      ∀ (i : Nat) (h1 : i < cs.length) (h2 : i < (panesLoop f cs).1.length),
        (KNode.name (cs.get ⟨i, h1⟩) ≠ "pane".toList →
          (panesLoop f cs).1.get ⟨i, h2⟩ = cs.get ⟨i, h1⟩) ∧
        (KNode.name (cs.get ⟨i, h1⟩) = "pane".toList →
          (panesLoop f cs).1.get ⟨i, h2⟩ =
            (process_panes_in_node (process_single_pane (cs.get ⟨i, h1⟩) f).1 f).1)) := by
  refine ⟨fun n rest h => pnr_cons_tab n rest h, ?_⟩
  intro f cs
  induction cs with
  | nil =>
    rw [panesLoop_nil]
    exact ⟨rfl, fun i h1 h2 => absurd h1 (by simp)⟩
  | cons c rest ih =>
    by_cases hc : KNode.name c = "pane".toList
    · rw [panesLoop_cons_pane f c rest hc]
      constructor
      · simp [ih.1]
      · intro i h1 h2
        cases i with
        | zero =>
          constructor
          · intro hne
            exact absurd hc hne
          · intro _
            exact panesLoop_head_eq_ppn (process_single_pane c f).1 f
        | succ j =>
          have h1x : j < rest.length := by simpa using h1
          have h2x : j < (panesLoop f rest).1.length := by simpa using h2
          exact ih.2 j h1x h2x
    · rw [panesLoop_cons_other f c rest hc]
      constructor
      · simp [ih.1]
      · intro i h1 h2
        cases i with
        | zero =>
          exact ⟨fun _ => rfl, fun hp => absurd hp hc⟩
        | succ j =>
          have h1x : j < rest.length := by simpa using h1
          have h2x : j < (panesLoop f rest).1.length := by simpa using h2
          exact ih.2 j h1x h2x

/-- Witness for C5 at a concrete tab and a concrete non-pane child. -/
theorem c5_walker_scope_amended_witness :
    process_nodes_recursive [tabDrWrap] =
      ((process_panes_in_node tabDrWrap (is_direnv_tab tabDrWrap)).1 :: [],
       (process_panes_in_node tabDrWrap (is_direnv_tab tabDrWrap)).2 ++ []) ∧
    (panesLoop true [wrapperNode]).1 = [wrapperNode] := by
  constructor
  · have h := c5_walker_scope_amended.1 tabDrWrap [] (by decide)
    rw [pnr_nil] at h
    exact h
  · have hl := (c5_walker_scope_amended.2 true [wrapperNode]).1
    have hg := (c5_walker_scope_amended.2 true [wrapperNode]).2 0 (by decide)
      (by rw [hl]; decide)
    have h0 := hg.1 (by decide)
    apply List.ext_get (by simpa using hl)
    intro i hi1 hi2
    have hi : i = 0 := by
      simp only [List.length_singleton] at hi2
      omega
    subst hi
    exact h0

/-- Witness for C6: the general characterization applied at a token
holding a forbidden character. -/
theorem c6_filename_classifier_witness :
    could_be_filename "a;b".toList = false :=
  (c6_filename_classifier.1 "a;b".toList).mpr ⟨';', by decide, Or.inr (by decide)⟩
